import Mathlib

/-!
Verification development for the trajectory geometry engine of the
danielsolisb/survey repository.

The source under scrutiny is `CoreApps/surveys/utils.py` (station solver
`minimum_curvature` and the survey-processing loop of `process_survey_file`)
and `CoreApps/surveys/visualizer.py` (the path-segment interpolator
`get_path_segment` and the geometry loop of `generate_3d_plot`).

Embedding choices:
* Raw spreadsheet numbers (measured depth, inclination, azimuth, diameters)
  are modelled as rationals (ℚ): they are finite decimal literals, and every
  operation performed on them before trigonometry is exact field arithmetic.
* The station solver uses trigonometric functions, so its inputs are cast to
  ℝ and its outputs live in ℝ (Python float arithmetic is idealised as real
  arithmetic; IEEE non-finite values have no counterpart here).
* The path-segment interpolator performs only linear interpolation, so it is
  modelled entirely over ℚ and stays executable.
-/

/-! ## Path-segment interpolator (visualizer.py, `get_path_segment`) -/

/-- A positioned station as the visualizer reads it back from the database
(`md`, `east`, `north`, `tvd` arrays extracted from the ordered station
query). -/
structure Station where
  md : ℚ
  east : ℚ
  north : ℚ
  tvd : ℚ
deriving DecidableEq

/-- Placeholder used for out-of-range list reads; every access in the model
is guarded exactly as the Python indices are. -/
def defaultStation : Station := ⟨0, 0, 0, 0⟩

/-- Model of `np.searchsorted(arr, v)` (side given as left, the default) for a
sorted array: the leftmost insertion index, i.e. the length of the maximal
prefix of entries strictly below `v`.  numpy requires its input sorted; the
recursion below computes the same index on sorted input. -/
def searchsorted (l : List ℚ) (v : ℚ) : Nat :=
  match l with
  | [] => 0
  | x :: xs => if x < v then searchsorted xs v + 1 else 0

/-- The interpolated point the Python code builds from `idx_prev = p` and its
successor:
`factor = (d - m0)/(m1 - m0) if m1 > m0 else 0` followed by coordinatewise
`v0 + (v1 - v0) * factor`, in the order (east, north, tvd). -/
def interpPoint (sts : List Station) (p : Nat) (d : ℚ) : ℚ × ℚ × ℚ :=
  let s0 := sts.getD p defaultStation
  let s1 := sts.getD (p + 1) defaultStation
  let factor := if s0.md < s1.md then (d - s0.md) / (s1.md - s0.md) else 0
  (s0.east + (s1.east - s0.east) * factor,
   s0.north + (s1.north - s0.north) * factor,
   s0.tvd + (s1.tvd - s0.tvd) * factor)

/-- Step 1 of `get_path_segment`: the stations whose depth lies inside
`[a, b]` (the boolean mask `(md_arr >= start_md) & (md_arr <= end_md)`). -/
def segOf (sts : List Station) (a b : ℚ) : List Station :=
  sts.filter (fun s => decide (a ≤ s.md) && decide (s.md ≤ b))

/-- Step 2 of `get_path_segment`: the interpolated start point, produced when
`len(m_seg) == 0 or m_seg[0] > start_md`, guarded by
`idx_prev >= 0 and idx_prev < len(md_arr) - 1` where
`idx_prev = np.searchsorted(md_arr, start_md) - 1`.  Points carry their
measured depth as last component (the Python `final_m` list). -/
def startPart (sts : List Station) (a b : ℚ) : List ((ℚ × ℚ × ℚ) × ℚ) :=
  if (segOf sts a b) = [] ∨ a < ((segOf sts a b).headD defaultStation).md then
    let k := searchsorted (sts.map (·.md)) a
    if 1 ≤ k ∧ k < sts.length then [(interpPoint sts (k - 1) a, a)] else []
  else []

/-- Step 3 of `get_path_segment`: the in-range stations, as
(east, north, tvd) triples paired with their depth. -/
def midPart (sts : List Station) (a b : ℚ) : List ((ℚ × ℚ × ℚ) × ℚ) :=
  (segOf sts a b).map (fun s => ((s.east, s.north, s.tvd), s.md))

/-- Step 4 of `get_path_segment`: the interpolated end point, produced when
`len(final_m) > 0 and final_m[-1] < end_md`, with the same index guard around
`np.searchsorted(md_arr, end_md) - 1`. -/
def endPart (sts : List Station) (a b : ℚ) : List ((ℚ × ℚ × ℚ) × ℚ) :=
  let fm := startPart sts a b ++ midPart sts a b
  if fm ≠ [] ∧ (fm.getLastD ((0, 0, 0), 0)).2 < b then
    let k := searchsorted (sts.map (·.md)) b
    if 1 ≤ k ∧ k < sts.length then [(interpPoint sts (k - 1) b, b)] else []
  else []

/-- Definition of `get_path_segment(start_md, end_md)` from `visualizer.py`: the final
coordinate-only polyline (the returned `final_e, final_n, final_t` arrays,
bundled as triples; the depth bookkeeping list `final_m` is dropped exactly
as the Python return drops it). -/
def get_path_segment (sts : List Station) (a b : ℚ) : List (ℚ × ℚ × ℚ) :=
  (startPart sts a b ++ midPart sts a b ++ endPart sts a b).map Prod.fst

/-- Spec-side linear interpolation between two bracketing stations, written
from the words of the specification: fractional position
`(d - depth_lo)/(depth_hi - depth_lo)`, taken as `0` when
`depth_hi = depth_lo`. -/
def linInterp (s0 s1 : Station) (d : ℚ) : ℚ × ℚ × ℚ :=
  let f := if s1.md = s0.md then 0 else (d - s0.md) / (s1.md - s0.md)
  (s0.east + (s1.east - s0.east) * f,
   s0.north + (s1.north - s0.north) * f,
   s0.tvd + (s1.tvd - s0.tvd) * f)

/-- Proposition that `p` is the linear interpolation, at depth `d`, of some consecutive pair of
stations bracketing `d`. -/
def bracketsAt (sts : List Station) (d : ℚ) (p : ℚ × ℚ × ℚ) : Prop :=
  ∃ i, i + 1 < sts.length ∧
    (sts.getD i defaultStation).md ≤ d ∧
    d ≤ (sts.getD (i + 1) defaultStation).md ∧
    p = linInterp (sts.getD i defaultStation) (sts.getD (i + 1) defaultStation) d

/-! ## Geometry sanitizer (utils.py, mechanical-sheet loop) -/

def allDigits (cs : List Char) : Bool := cs.all (fun c => c.isDigit)

def digitsVal (cs : List Char) : Nat :=
  cs.foldl (fun a c => a * 10 + (c.toNat - 48)) 0

/-- Split a character list at every dot, keeping empty chunks (so a string
with two dots yields three chunks and is rejected downstream). -/
def splitOnDot (cs : List Char) : List (List Char) :=
  match cs with
  | [] => [[]]
  | c :: r =>
    let t := splitOnDot r
    if c = '.' then [] :: t
    else
      match t with
      | [] => [[c]]
      | h :: t2 => (c :: h) :: t2

/-- Digit-level stage of parsing a plain decimal literal: optional sign,
digits, at most one dot, at least one digit.  Returns
(negative?, integer-part value, fraction-part value, fraction length). -/
def parseParts? (s : String) : Option (Bool × Nat × Nat × Nat) :=
  let cs := s.data
  let signRest : Bool × List Char :=
    match cs with
    | c :: r => if c = '-' then (true, r) else if c = '+' then (false, r) else (false, cs)
    | [] => (false, [])
  match splitOnDot signRest.2 with
  | [ip] =>
    if ip ≠ [] ∧ allDigits ip then some (signRest.1, digitsVal ip, 0, 0) else none
  | [ip, fp] =>
    if (ip ≠ [] ∨ fp ≠ []) ∧ allDigits ip ∧ allDigits fp then
      some (signRest.1, digitsVal ip, digitsVal fp, fp.length)
    else none
  | _ => none

/-- The rational value of a parsed decimal literal. -/
def partsToRat (p : Bool × Nat × Nat × Nat) : ℚ :=
  (if p.1 then (-1 : ℚ) else 1) * ((p.2.1 : ℚ) + (p.2.2.1 : ℚ) / (10 : ℚ) ^ p.2.2.2)

/-- Model of the Python built-in `float(str)` restricted to plain decimal
literals.  The imports at issue only feed such literals (or garbage, which
fails here just as `float` raises `ValueError`). -/
def parseFloat? (s : String) : Option ℚ := (parseParts? s).map partsToRat

/-- Model of `raw_diameter.replace(',', '.')`: single-character replacement is a
characterwise map. -/
def replaceCommaDot (s : String) : String :=
  String.mk (s.data.map (fun c => if c = ',' then '.' else c))

/-- The diameter sanitization of `process_survey_file` for string input:
normalise the comma, parse, apply the `> 100 → / 1000` scale heuristic, and
fall back to `8.5` when parsing fails. -/
def sanitize_diameter (raw : String) : ℚ :=
  match parseFloat? (replaceCommaDot raw) with
  | some v => if v > 100 then v / 1000 else v
  | none => 8.5

/-- The color handling of `process_survey_file`: `color=str(row['Color'])`.
A present cell is passed through; an absent cell is a pandas NaN, and
`str(float('nan'))` is the literal string `"nan"`. -/
def sanitize_color (raw : Option String) : String :=
  match raw with
  | some c => c
  | none => "nan"

/-- The default of the `BoreholeGeometry.color` model field
(`default="#808080"` in models.py), applied only when no color value is
passed to the constructor at all. -/
def boreholeGeometryColorDefault : String := "#808080"

/-- The legend-marker color choice of `generate_3d_plot`:
`item.color if item.color else 'blue'` (an empty string is the only falsy
CharField value). -/
def legendColorOf (c : String) : String := if c = "" then "blue" else c

/-! ## Geometry compositor (visualizer.py, geometry loop) -/

/-- A borehole-geometry record as the visualizer loop reads it. -/
structure GeomRecord where
  item_type : String
  start_md : ℚ
  end_md : ℚ
  diameter : ℚ
  color : String
deriving DecidableEq

/-- The renderable output of one loop iteration: the cylinder trace data
(label, visual radius, centerline points). -/
structure Descriptor where
  label : String
  radius : ℚ
  points : List (ℚ × ℚ × ℚ)
deriving DecidableEq

def VISUAL_EXAGGERATION_FACTOR : ℚ := 50

/-- The label `f"{item.item_type} ({item.diameter}\")"` as used for hover text and
legend deduplication. -/
def mkLabel (item : GeomRecord) : String :=
  item.item_type ++ " (" ++ toString item.diameter ++ "\")"

/-- The cylinder descriptor built for one geometry record:
`radius_ft = (item.diameter / 2) / 12`, `r_viz = radius_ft * 50`, and the
interpolated centerline. -/
def mkDescriptor (sts : List Station) (item : GeomRecord) : Descriptor :=
  { label := mkLabel item
    radius := item.diameter / 2 / 12 * VISUAL_EXAGGERATION_FACTOR
    points := get_path_segment sts item.start_md item.end_md }

/-- The geometry loop of `generate_3d_plot` (the `else` branch, lines
122–144): for each record in the order given, interpolate its sub-path; when
it has more than one point, emit the cylinder descriptor and, if the label is
new, a legend entry (label, marker color); otherwise emit nothing for the
record and continue. -/
def composeLoop (sts : List Station) :
    List GeomRecord → List String → List Descriptor × List (String × String)
  | [], _ => ([], [])
  | item :: rest, legend =>
    let pts := get_path_segment sts item.start_md item.end_md
    if 1 < pts.length then
      let label := mkLabel item
      let newLegend := if label ∈ legend then legend else label :: legend
      let tailOut := composeLoop sts rest newLegend
      (mkDescriptor sts item :: tailOut.1,
       (if label ∈ legend then [] else [(label, legendColorOf item.color)]) ++ tailOut.2)
    else
      composeLoop sts rest legend

/-- The descriptor sequence produced by `generate_3d_plot` for a trajectory
with at least one geometry record (legend starts empty). -/
def generate_3d_plot_descriptors (sts : List Station) (geometry : List GeomRecord) :
    List Descriptor :=
  (composeLoop sts geometry []).1

/-- The cylinder descriptors are independent of the legend-deduplication
state: they are exactly the records whose interpolated path has at least two
points, in input order. -/
theorem composeLoop_fst (sts : List Station) (recs : List GeomRecord) :
    ∀ legend, (composeLoop sts recs legend).1 =
      (recs.filter
        (fun r => decide (1 < (get_path_segment sts r.start_md r.end_md).length))).map
        (mkDescriptor sts) := by
  induction recs with
  | nil => intro legend; rfl
  | cons item rest ih =>
    intro legend
    by_cases h : 1 < (get_path_segment sts item.start_md item.end_md).length
    · simp only [composeLoop, if_pos h, List.filter_cons, decide_eq_true_eq, h,
        if_true, List.map_cons, ih]
    · simp only [composeLoop, if_neg h, List.filter_cons, decide_eq_true_eq, h,
        if_false, ih]

/-- C9: For every list of geometry records, the compositor processes records
in input order, and a record whose interpolated sub-path contains fewer than
2 points is skipped (no descriptor is emitted for it) while composition
continues for the remaining records: the emitted descriptors are exactly the
records with a ≥ 2-point path, in order. -/
theorem C9_compositor_skips_short_paths (sts : List Station) (recs : List GeomRecord) :
    generate_3d_plot_descriptors sts recs =
      (recs.filter
        (fun r => decide (1 < (get_path_segment sts r.start_md r.end_md).length))).map
        (mkDescriptor sts) := by
  simpa [generate_3d_plot_descriptors] using composeLoop_fst sts recs []

/-- C7: the diameter sanitizer corrects `"9625"` to `9.625` by the scale
heuristic, normalises the comma in `"9,625"` to obtain `9.625`, and falls
back to `8.5` on unparsable input. -/
theorem C7_sanitizer_examples :
    sanitize_diameter "9625" = 9.625 ∧
    sanitize_diameter "9,625" = 9.625 ∧
    sanitize_diameter "not-a-number" = 8.5 := by
  refine ⟨?_, ?_, ?_⟩
  · have h : parseParts? (replaceCommaDot "9625") = some (false, 9625, 0, 0) := by decide
    rw [sanitize_diameter, parseFloat?, h]
    norm_num [partsToRat]
  · have h : parseParts? (replaceCommaDot "9,625") = some (false, 9, 625, 3) := by decide
    rw [sanitize_diameter, parseFloat?, h]
    norm_num [partsToRat]
  · have h : parseParts? (replaceCommaDot "not-a-number") = none := by decide
    rw [sanitize_diameter, parseFloat?, h]
    rfl

/-- C8 counterexample: an absent raw color does not become the neutral gray
string; the import path converts it to the literal string produced by
stringifying a pandas NaN. -/
theorem C8_counterexample : sanitize_color none ≠ "#808080" := by decide

/-- C8 (amended): an absent raw color value is converted to the string
`"nan"` by the import path, and it reaches the legend unchanged (the
visualizer only replaces an empty string by `"blue"`); the neutral gray
`"#808080"` is only the model-field default used when no color value is
supplied to the record constructor at all. -/
theorem C8_amended :
    sanitize_color none = "nan" ∧
    legendColorOf (sanitize_color none) = "nan" ∧
    boreholeGeometryColorDefault = "#808080" := by
  refine ⟨rfl, by decide, rfl⟩

/-! ## List helpers for the interpolator proofs -/

theorem headD_mem {α : Type} {l : List α} (d : α) (h : l ≠ []) : l.headD d ∈ l := by
  cases l with
  | nil => exact absurd rfl h
  | cons x xs => simp

theorem getLastD_mem {α : Type} {l : List α} (d : α) (h : l ≠ []) : l.getLastD d ∈ l := by
  induction l generalizing d with
  | nil => exact absurd rfl h
  | cons x xs ih =>
    rw [List.getLastD_cons]
    cases xs with
    | nil => simp
    | cons y ys => exact List.mem_cons_of_mem x (ih (d := x) (by simp))

theorem headD_append_left {α : Type} {l1 l2 : List α} (d : α) (h : l1 ≠ []) :
    (l1 ++ l2).headD d = l1.headD d := by
  cases l1 with
  | nil => exact absurd rfl h
  | cons x xs => rfl

theorem getLastD_append_right {α : Type} {l1 l2 : List α} (d : α) (h : l2 ≠ []) :
    (l1 ++ l2).getLastD d = l2.getLastD d := by
  rw [List.getLastD_eq_getLast?, List.getLastD_eq_getLast?, List.getLast?_append_of_ne_nil l1 h]

theorem getLastD_map_of_ne_nil {α β : Type} (f : α → β) {l : List α} (h : l ≠ [])
    (d : β) (d2 : α) : (l.map f).getLastD d = f (l.getLastD d2) := by
  induction l generalizing d d2 with
  | nil => exact absurd rfl h
  | cons x xs ih =>
    cases xs with
    | nil => rfl
    | cons y ys =>
      rw [List.map_cons, List.getLastD_cons, List.getLastD_cons]
      exact ih (by simp) (f x) x

theorem headD_map_of_ne_nil {α β : Type} (f : α → β) {l : List α} (h : l ≠ [])
    (d : β) (d2 : α) : (l.map f).headD d = f (l.headD d2) := by
  cases l with
  | nil => exact absurd rfl h
  | cons x xs => rfl

/-! ## searchsorted lemmas -/

theorem searchsorted_le_length (l : List ℚ) (v : ℚ) : searchsorted l v ≤ l.length := by
  induction l with
  | nil => simp [searchsorted]
  | cons x xs ih =>
    simp only [searchsorted, List.length_cons]
    split
    · omega
    · omega

theorem getD_lt_of_lt_searchsorted {l : List ℚ} {v : ℚ} {i : Nat}
    (hi : i < searchsorted l v) : l.getD i 0 < v := by
  induction l generalizing i with
  | nil => simp [searchsorted] at hi
  | cons x xs ih =>
    simp only [searchsorted] at hi
    by_cases hx : x < v
    · rw [if_pos hx] at hi
      cases i with
      | zero => simpa using hx
      | succ j =>
        rw [List.getD_cons_succ]
        exact ih (by omega)
    · rw [if_neg hx] at hi
      omega

theorem le_getD_searchsorted {l : List ℚ} {v : ℚ}
    (h : searchsorted l v < l.length) : v ≤ l.getD (searchsorted l v) 0 := by
  induction l with
  | nil => simp at h
  | cons x xs ih =>
    by_cases hx : x < v
    · simp only [searchsorted, if_pos hx] at h ⊢
      rw [List.getD_cons_succ]
      exact ih (by simpa [Nat.succ_lt_succ_iff] using h)
    · simp only [searchsorted, if_neg hx]
      rw [List.getD_cons_zero]
      exact le_of_not_lt hx

theorem searchsorted_pos {l : List ℚ} {v : ℚ} (hne : l ≠ []) (h : l.getD 0 0 < v) :
    1 ≤ searchsorted l v := by
  cases l with
  | nil => exact absurd rfl hne
  | cons x xs =>
    rw [List.getD_cons_zero] at h
    simp only [searchsorted, if_pos h]
    omega

theorem searchsorted_lt_length {l : List ℚ} {v : ℚ} (hne : l ≠ [])
    (h : v ≤ l.getD (l.length - 1) 0) : searchsorted l v < l.length := by
  rcases Nat.lt_or_ge (searchsorted l v) l.length with hlt | hge
  · exact hlt
  · exfalso
    have hlen : 0 < l.length := List.length_pos.2 hne
    have hcontra : l.getD (l.length - 1) 0 < v :=
      getD_lt_of_lt_searchsorted (by omega)
    linarith

/-! ## Index bookkeeping for stations -/

theorem getD_eq_getElem_station {sts : List Station} {i : Nat} (h : i < sts.length) :
    sts.getD i defaultStation = sts[i] := by
  rw [List.getD_eq_getElem?_getD, List.getElem?_eq_getElem h]
  rfl

theorem getD_map_md (sts : List Station) (i : Nat) :
    (sts.map (fun s => s.md)).getD i 0 = (sts.getD i defaultStation).md := by
  rw [List.getD_eq_getElem?_getD, List.getD_eq_getElem?_getD, List.getElem?_map]
  cases h : sts[i]? <;> simp [defaultStation]

theorem sorted_md_strict {sts : List Station}
    (hsort : sts.Pairwise (fun s t => s.md < t.md)) {i j : Nat} (hij : i < j)
    (hj : j < sts.length) :
    (sts.getD i defaultStation).md < (sts.getD j defaultStation).md := by
  have hi : i < sts.length := lt_trans hij hj
  rw [getD_eq_getElem_station hi, getD_eq_getElem_station hj]
  exact List.pairwise_iff_getElem.1 hsort i j hi hj hij

/-! ## Interpolation formula lemmas -/

theorem linInterp_left {s0 s1 : Station} (h : s0.md ≠ s1.md) :
    linInterp s0 s1 s0.md = (s0.east, s0.north, s0.tvd) := by
  have h1 : ¬(s1.md = s0.md) := fun hh => h hh.symm
  simp [linInterp, h1, sub_self, zero_div]

theorem linInterp_right {s0 s1 : Station} (h : s0.md ≠ s1.md) :
    linInterp s0 s1 s1.md = (s1.east, s1.north, s1.tvd) := by
  have h1 : ¬(s1.md = s0.md) := fun hh => h hh.symm
  have h2 : s1.md - s0.md ≠ 0 := sub_ne_zero.2 (fun hh => h hh.symm)
  simp only [linInterp, if_neg h1, div_self h2, Prod.mk.injEq]
  refine ⟨by ring, by ring, by ring⟩

theorem interpPoint_eq_linInterp {sts : List Station} {p : Nat} {d : ℚ}
    (h : (sts.getD p defaultStation).md < (sts.getD (p + 1) defaultStation).md) :
    interpPoint sts p d =
      linInterp (sts.getD p defaultStation) (sts.getD (p + 1) defaultStation) d := by
  have h1 : ¬((sts.getD (p + 1) defaultStation).md = (sts.getD p defaultStation).md) :=
    ne_of_gt h
  simp only [interpPoint, linInterp, if_pos h, if_neg h1]

/-! ## segOf and part-shape lemmas -/

theorem mem_segOf {sts : List Station} {a b : ℚ} {s : Station} (h : s ∈ segOf sts a b) :
    s ∈ sts ∧ a ≤ s.md ∧ s.md ≤ b := by
  have h1 := List.mem_of_mem_filter h
  have h2 := List.of_mem_filter h
  simp only [Bool.and_eq_true, decide_eq_true_eq] at h2
  exact ⟨h1, h2.1, h2.2⟩

theorem seg_head_md_eq {sts : List Station} {a b : ℚ}
    (hneed : ¬(segOf sts a b = [] ∨ a < ((segOf sts a b).headD defaultStation).md)) :
    segOf sts a b ≠ [] ∧ ((segOf sts a b).headD defaultStation).md = a := by
  push_neg at hneed
  obtain ⟨hne, hle⟩ := hneed
  have hmem := headD_mem defaultStation hne
  have hge := (mem_segOf hmem).2.1
  exact ⟨hne, le_antisymm hle hge⟩

theorem md0_lt_of_startNeeded {sts : List Station} {a b : ℚ}
    (hne : sts ≠ []) (hab : a ≤ b)
    (hlo : (sts.getD 0 defaultStation).md ≤ a)
    (hneed : segOf sts a b = [] ∨ a < ((segOf sts a b).headD defaultStation).md) :
    (sts.getD 0 defaultStation).md < a := by
  rcases lt_or_eq_of_le hlo with h | h
  · exact h
  · exfalso
    cases sts with
    | nil => exact hne rfl
    | cons s0 t =>
      rw [List.getD_cons_zero] at h
      have hpass : (decide (a ≤ s0.md) && decide (s0.md ≤ b)) = true := by
        rw [h]
        simp [hab]
      have hseg : segOf (s0 :: t) a b
          = s0 :: t.filter (fun s => decide (a ≤ s.md) && decide (s.md ≤ b)) := by
        simp only [segOf]
        exact List.filter_cons_of_pos hpass
      rcases hneed with hnil | hlt
      · rw [hseg] at hnil
        exact List.cons_ne_nil _ _ hnil
      · rw [hseg, List.headD_cons, h] at hlt
        exact lt_irrefl a hlt

theorem md0_lt_of_fmlast_lt {sts : List Station} {a b : ℚ}
    (hsort : sts.Pairwise (fun s t => s.md < t.md)) (hne : sts ≠ [])
    (hlo : (sts.getD 0 defaultStation).md ≤ a) (hab : a ≤ b)
    (hlast : ((startPart sts a b ++ midPart sts a b).getLastD ((0, 0, 0), 0)).2 < b) :
    (sts.getD 0 defaultStation).md < b := by
  rcases lt_or_eq_of_le (le_trans hlo hab) with h | h
  · exact h
  · exfalso
    cases sts with
    | nil => exact hne rfl
    | cons s0 t =>
      rw [List.getD_cons_zero] at h hlo
      have hab2 : a = b := le_antisymm hab (h ▸ hlo)
      have hs0a : s0.md = a := by rw [h, ← hab2]
      have htnil : t.filter (fun s => decide (a ≤ s.md) && decide (s.md ≤ b)) = [] := by
        rw [List.filter_eq_nil_iff]
        intro x hx
        obtain ⟨j, hj, hxj⟩ := List.mem_iff_getElem.1 hx
        have hjlt : (j + 1) < (s0 :: t).length := by
          simp only [List.length_cons]
          omega
        have hmdlt := sorted_md_strict hsort (Nat.succ_pos j) hjlt
        rw [List.getD_cons_zero, List.getD_cons_succ, getD_eq_getElem_station hj, hxj] at hmdlt
        simp only [Bool.and_eq_true, decide_eq_true_eq, not_and]
        intro _
        exact not_le.2 (h ▸ hmdlt)
      have hpass : (decide (a ≤ s0.md) && decide (s0.md ≤ b)) = true := by
        rw [hs0a, hab2]
        simp
      have hstep : List.filter (fun s => decide (a ≤ s.md) && decide (s.md ≤ b)) (s0 :: t)
          = s0 :: List.filter (fun s => decide (a ≤ s.md) && decide (s.md ≤ b)) t :=
        List.filter_cons_of_pos hpass
      have hseg : segOf (s0 :: t) a b = [s0] := by
        simp only [segOf]
        rw [hstep, htnil]
      have hcond : ¬(([s0] : List Station) = [] ∨ a < (([s0] : List Station).headD defaultStation).md) := by
        simp [List.headD_cons, hs0a]
      have hsp : startPart (s0 :: t) a b = [] := by
        simp only [startPart, hseg]
        rw [if_neg hcond]
      rw [hsp, midPart, hseg] at hlast
      simp [hs0a, hab2] at hlast

theorem startPart_eq_of_needed {sts : List Station} {a b : ℚ}
    (hn : 2 ≤ sts.length)
    (hlo : (sts.getD 0 defaultStation).md ≤ a) (hab : a ≤ b)
    (hhi : b ≤ (sts.getD (sts.length - 1) defaultStation).md)
    (hneed : segOf sts a b = [] ∨ a < ((segOf sts a b).headD defaultStation).md) :
    1 ≤ searchsorted (sts.map (fun s => s.md)) a ∧
    searchsorted (sts.map (fun s => s.md)) a < sts.length ∧
    startPart sts a b =
      [(interpPoint sts (searchsorted (sts.map (fun s => s.md)) a - 1) a, a)] := by
  have hne : sts ≠ [] := by
    intro hh
    rw [hh] at hn
    simp at hn
  have hmapne : sts.map (fun s => s.md) ≠ [] := by
    intro hh
    exact hne (List.map_eq_nil_iff.1 hh)
  have h0 : (sts.map (fun s => s.md)).getD 0 0 < a := by
    rw [getD_map_md]
    exact md0_lt_of_startNeeded hne hab hlo hneed
  have hk1 := searchsorted_pos hmapne h0
  have hklen : searchsorted (sts.map (fun s => s.md)) a < (sts.map (fun s => s.md)).length := by
    apply searchsorted_lt_length hmapne
    rw [List.length_map, getD_map_md]
    exact le_trans hab hhi
  have hk2 : searchsorted (sts.map (fun s => s.md)) a < sts.length := by
    rw [List.length_map] at hklen
    exact hklen
  refine ⟨hk1, hk2, ?_⟩
  simp only [startPart]
  rw [if_pos hneed, if_pos ⟨hk1, hk2⟩]

theorem fm_ne_nil {sts : List Station} {a b : ℚ}
    (hn : 2 ≤ sts.length)
    (hlo : (sts.getD 0 defaultStation).md ≤ a) (hab : a ≤ b)
    (hhi : b ≤ (sts.getD (sts.length - 1) defaultStation).md) :
    startPart sts a b ++ midPart sts a b ≠ [] := by
  by_cases hneed : segOf sts a b = [] ∨ a < ((segOf sts a b).headD defaultStation).md
  · obtain ⟨_, _, hsp⟩ := startPart_eq_of_needed hn hlo hab hhi hneed
    rw [hsp]
    simp
  · have hne := (seg_head_md_eq hneed).1
    intro hh
    rw [List.append_eq_nil] at hh
    apply hne
    have := hh.2
    rw [midPart] at this
    exact List.map_eq_nil_iff.1 this

theorem fm_snd_le_b {sts : List Station} {a b : ℚ} (hab : a ≤ b)
    {x : (ℚ × ℚ × ℚ) × ℚ} (hx : x ∈ startPart sts a b ++ midPart sts a b) : x.2 ≤ b := by
  rcases List.mem_append.1 hx with hx | hx
  · simp only [startPart] at hx
    split at hx
    · split at hx
      · simp only [List.mem_singleton] at hx
        subst hx
        exact hab
      · simp at hx
    · simp at hx
  · obtain ⟨s, hs, rfl⟩ := List.mem_map.1 hx
    exact (mem_segOf hs).2.2

theorem endPart_eq_of_lt {sts : List Station} {a b : ℚ}
    (hsort : sts.Pairwise (fun s t => s.md < t.md)) (hn : 2 ≤ sts.length)
    (hlo : (sts.getD 0 defaultStation).md ≤ a) (hab : a ≤ b)
    (hhi : b ≤ (sts.getD (sts.length - 1) defaultStation).md)
    (hlast : ((startPart sts a b ++ midPart sts a b).getLastD ((0, 0, 0), 0)).2 < b) :
    1 ≤ searchsorted (sts.map (fun s => s.md)) b ∧
    searchsorted (sts.map (fun s => s.md)) b < sts.length ∧
    endPart sts a b =
      [(interpPoint sts (searchsorted (sts.map (fun s => s.md)) b - 1) b, b)] := by
  have hne : sts ≠ [] := by
    intro hh
    rw [hh] at hn
    simp at hn
  have hmapne : sts.map (fun s => s.md) ≠ [] := by
    intro hh
    exact hne (List.map_eq_nil_iff.1 hh)
  have h0 : (sts.map (fun s => s.md)).getD 0 0 < b := by
    rw [getD_map_md]
    exact md0_lt_of_fmlast_lt hsort hne hlo hab hlast
  have hk1 := searchsorted_pos hmapne h0
  have hklen : searchsorted (sts.map (fun s => s.md)) b < (sts.map (fun s => s.md)).length := by
    apply searchsorted_lt_length hmapne
    rw [List.length_map, getD_map_md]
    exact hhi
  have hk2 : searchsorted (sts.map (fun s => s.md)) b < sts.length := by
    rw [List.length_map] at hklen
    exact hklen
  have hfmne := fm_ne_nil hn hlo hab hhi
  refine ⟨hk1, hk2, ?_⟩
  simp only [endPart]
  rw [if_pos ⟨hfmne, hlast⟩, if_pos ⟨hk1, hk2⟩]

/-! ## Bracketing lemmas -/

theorem bracketsAt_station {sts : List Station}
    (hsort : sts.Pairwise (fun s t => s.md < t.md)) (hn : 2 ≤ sts.length)
    {i : Nat} (hi : i < sts.length) :
    bracketsAt sts (sts.getD i defaultStation).md
      ((sts.getD i defaultStation).east, (sts.getD i defaultStation).north,
        (sts.getD i defaultStation).tvd) := by
  rcases Nat.lt_or_ge (i + 1) sts.length with hlt | hge
  · have hmono := sorted_md_strict hsort (Nat.lt_succ_self i) hlt
    exact ⟨i, hlt, le_refl _, le_of_lt hmono, (linInterp_left (ne_of_lt hmono)).symm⟩
  · have hj : sts.length - 2 + 1 < sts.length := by omega
    have hip : sts.length - 2 + 1 = i := by omega
    rw [← hip]
    have hmono := sorted_md_strict hsort (Nat.lt_succ_self (sts.length - 2)) hj
    exact ⟨sts.length - 2, hj, le_of_lt hmono, le_refl _,
      (linInterp_right (ne_of_lt hmono)).symm⟩

theorem bracketsAt_searchsorted {sts : List Station} {v : ℚ}
    (hsort : sts.Pairwise (fun s t => s.md < t.md))
    (hk1 : 1 ≤ searchsorted (sts.map (fun s => s.md)) v)
    (hk2 : searchsorted (sts.map (fun s => s.md)) v < sts.length) :
    bracketsAt sts v (interpPoint sts (searchsorted (sts.map (fun s => s.md)) v - 1) v) := by
  have hk1' : searchsorted (sts.map (fun s => s.md)) v - 1 + 1
      = searchsorted (sts.map (fun s => s.md)) v := by omega
  have hlow : (sts.getD (searchsorted (sts.map (fun s => s.md)) v - 1) defaultStation).md < v := by
    have h := getD_lt_of_lt_searchsorted
      (l := sts.map (fun s => s.md)) (v := v)
      (i := searchsorted (sts.map (fun s => s.md)) v - 1) (by omega)
    rwa [getD_map_md] at h
  have hhigh : v ≤ (sts.getD (searchsorted (sts.map (fun s => s.md)) v) defaultStation).md := by
    have hlt : searchsorted (sts.map (fun s => s.md)) v < (sts.map (fun s => s.md)).length := by
      rw [List.length_map]
      exact hk2
    have h := le_getD_searchsorted hlt
    rwa [getD_map_md] at h
  have hmono : (sts.getD (searchsorted (sts.map (fun s => s.md)) v - 1) defaultStation).md
      < (sts.getD (searchsorted (sts.map (fun s => s.md)) v - 1 + 1) defaultStation).md :=
    sorted_md_strict hsort (Nat.lt_succ_self _) (by omega)
  refine ⟨searchsorted (sts.map (fun s => s.md)) v - 1, by omega, le_of_lt hlow, ?_, ?_⟩
  · rw [hk1']
    exact hhigh
  · exact interpPoint_eq_linInterp hmono

/-! ## Head and last of the interpolated polyline -/

theorem head_brackets {sts : List Station} {a b : ℚ}
    (hsort : sts.Pairwise (fun s t => s.md < t.md)) (hn : 2 ≤ sts.length)
    (hlo : (sts.getD 0 defaultStation).md ≤ a) (hab : a ≤ b)
    (hhi : b ≤ (sts.getD (sts.length - 1) defaultStation).md) :
    bracketsAt sts a ((get_path_segment sts a b).headD (0, 0, 0)) := by
  have hfm := fm_ne_nil hn hlo hab hhi
  have happ : startPart sts a b ++ midPart sts a b ++ endPart sts a b ≠ [] := by
    intro hh
    rw [List.append_eq_nil] at hh
    exact hfm hh.1
  simp only [get_path_segment]
  rw [headD_map_of_ne_nil Prod.fst happ (0, 0, 0) ((0, 0, 0), 0)]
  rw [headD_append_left _ hfm]
  by_cases hneed : segOf sts a b = [] ∨ a < ((segOf sts a b).headD defaultStation).md
  · obtain ⟨hk1, hk2, hsp⟩ := startPart_eq_of_needed hn hlo hab hhi hneed
    rw [hsp, List.singleton_append, List.headD_cons]
    exact bracketsAt_searchsorted hsort hk1 hk2
  · obtain ⟨hne, hmd⟩ := seg_head_md_eq hneed
    have hsp : startPart sts a b = [] := by
      simp only [startPart]
      rw [if_neg hneed]
    rw [hsp, List.nil_append]
    cases hseq : segOf sts a b with
    | nil => exact absurd hseq hne
    | cons s rest =>
      have hsmem : s ∈ sts := (mem_segOf (by rw [hseq]; exact List.mem_cons_self s rest)).1
      obtain ⟨i, hi, hieq⟩ := List.mem_iff_getElem.1 hsmem
      have hbr := bracketsAt_station hsort hn hi
      rw [getD_eq_getElem_station hi, hieq] at hbr
      rw [hseq, List.headD_cons] at hmd
      rw [hmd] at hbr
      simp only [midPart, hseq, List.map_cons, List.headD_cons]
      exact hbr

theorem last_brackets {sts : List Station} {a b : ℚ}
    (hsort : sts.Pairwise (fun s t => s.md < t.md)) (hn : 2 ≤ sts.length)
    (hlo : (sts.getD 0 defaultStation).md ≤ a) (hab : a ≤ b)
    (hhi : b ≤ (sts.getD (sts.length - 1) defaultStation).md) :
    bracketsAt sts b ((get_path_segment sts a b).getLastD (0, 0, 0)) := by
  have hfm := fm_ne_nil hn hlo hab hhi
  have hqle : ((startPart sts a b ++ midPart sts a b).getLastD ((0, 0, 0), 0)).2 ≤ b :=
    fm_snd_le_b hab (getLastD_mem _ hfm)
  simp only [get_path_segment]
  by_cases hlt : ((startPart sts a b ++ midPart sts a b).getLastD ((0, 0, 0), 0)).2 < b
  · obtain ⟨hk1, hk2, hep⟩ := endPart_eq_of_lt hsort hn hlo hab hhi hlt
    have hepne : endPart sts a b ≠ [] := by
      rw [hep]
      exact List.cons_ne_nil _ _
    have happ : startPart sts a b ++ midPart sts a b ++ endPart sts a b ≠ [] := by
      intro hh
      rw [List.append_eq_nil] at hh
      exact hfm hh.1
    rw [getLastD_map_of_ne_nil Prod.fst happ (0, 0, 0) ((0, 0, 0), 0)]
    rw [getLastD_append_right _ hepne, hep, List.getLastD_cons, List.getLastD_nil]
    exact bracketsAt_searchsorted hsort hk1 hk2
  · have hqb : ((startPart sts a b ++ midPart sts a b).getLastD ((0, 0, 0), 0)).2 = b :=
      le_antisymm hqle (not_lt.1 hlt)
    have hep : endPart sts a b = [] := by
      simp only [endPart]
      rw [if_neg]
      intro hc
      exact hlt hc.2
    have happ2 : startPart sts a b ++ midPart sts a b ++ endPart sts a b
        = startPart sts a b ++ midPart sts a b := by
      rw [hep, List.append_nil]
    rw [happ2, getLastD_map_of_ne_nil Prod.fst hfm (0, 0, 0) ((0, 0, 0), 0)]
    by_cases hmp : midPart sts a b = []
    · have hsegnil : segOf sts a b = [] := by
        have hh := hmp
        rw [midPart] at hh
        exact List.map_eq_nil_iff.1 hh
      obtain ⟨hk1, hk2, hsp⟩ := startPart_eq_of_needed hn hlo hab hhi (Or.inl hsegnil)
      rw [hmp, List.append_nil, hsp] at hqb ⊢
      rw [List.getLastD_cons, List.getLastD_nil] at hqb ⊢
      have hab2 : a = b := hqb
      subst hab2
      exact bracketsAt_searchsorted hsort hk1 hk2
    · rw [getLastD_append_right _ hmp] at hqb ⊢
      have hsegne : segOf sts a b ≠ [] := by
        intro hh
        apply hmp
        rw [midPart, hh]
        rfl
      rw [midPart] at hqb ⊢
      rw [getLastD_map_of_ne_nil _ hsegne _ defaultStation] at hqb ⊢
      have hsmem : (segOf sts a b).getLastD defaultStation ∈ sts :=
        (mem_segOf (getLastD_mem _ hsegne)).1
      obtain ⟨i, hi, hieq⟩ := List.mem_iff_getElem.1 hsmem
      have hbr := bracketsAt_station hsort hn hi
      rw [getD_eq_getElem_station hi, hieq] at hbr
      have hqb2 : ((segOf sts a b).getLastD defaultStation).md = b := hqb
      rw [hqb2] at hbr
      exact hbr

/-- C1: For every ordered station list with strictly increasing depths and
every depth range `[a, b]` lying fully inside the station depth coverage, the
polyline returned by `get_path_segment` is nonempty, its first point is
exactly the linear interpolation of the bracketing stations at the start
depth, and its last point is exactly the linear interpolation of the
bracketing stations at the end depth — including when no station depth equals
`a` or `b`. -/
theorem C1_interpolator_endpoints (sts : List Station) (a b : ℚ)
    (hsort : sts.Pairwise (fun s t => s.md < t.md))
    (hn : 2 ≤ sts.length)
    (hlo : (sts.getD 0 defaultStation).md ≤ a)
    (hab : a ≤ b)
    (hhi : b ≤ (sts.getD (sts.length - 1) defaultStation).md) :
    get_path_segment sts a b ≠ [] ∧
    bracketsAt sts a ((get_path_segment sts a b).headD (0, 0, 0)) ∧
    bracketsAt sts b ((get_path_segment sts a b).getLastD (0, 0, 0)) := by
  refine ⟨?_, head_brackets hsort hn hlo hab hhi, last_brackets hsort hn hlo hab hhi⟩
  simp only [get_path_segment]
  intro hh
  rw [List.map_eq_nil_iff, List.append_eq_nil] at hh
  exact fm_ne_nil hn hlo hab hhi hh.1

/-- C1 witness: a concrete two-station trajectory and the interior range
`[25, 75]`, neither endpoint of which coincides with a station depth. -/
theorem C1_interpolator_endpoints_witness :
    get_path_segment [⟨0, 0, 0, 0⟩, ⟨100, 10, 20, 90⟩] 25 75 ≠ [] ∧
    bracketsAt [⟨0, 0, 0, 0⟩, ⟨100, 10, 20, 90⟩] 25
      ((get_path_segment [⟨0, 0, 0, 0⟩, ⟨100, 10, 20, 90⟩] 25 75).headD (0, 0, 0)) ∧
    bracketsAt [⟨0, 0, 0, 0⟩, ⟨100, 10, 20, 90⟩] 75
      ((get_path_segment [⟨0, 0, 0, 0⟩, ⟨100, 10, 20, 90⟩] 25 75).getLastD (0, 0, 0)) :=
  C1_interpolator_endpoints _ 25 75 (by decide) (by decide) (by decide) (by decide) (by decide)

/-! ## Station solver (utils.py, `minimum_curvature`), over ℝ -/

/-- Model of `math.radians(x) = x * pi / 180`. -/
noncomputable def radiansR (x : ℝ) : ℝ := x * (Real.pi / 180)

/-- Model of `math.degrees(x) = x * 180 / pi`. -/
noncomputable def degreesR (x : ℝ) : ℝ := x * (180 / Real.pi)

/-- The dogleg cosine `cos_beta = cos(i2 - i1) - (sin(i1) * sin(i2) * (1 - cos(a2 - a1)))`. -/
noncomputable def cosBeta (i1 a1 i2 a2 : ℝ) : ℝ :=
  Real.cos (i2 - i1) - Real.sin i1 * Real.sin i2 * (1 - Real.cos (a2 - a1))

/-- The two sequential clamping statements
`if cos_beta > 1: cos_beta = 1` and `if cos_beta < -1: cos_beta = -1`. -/
noncomputable def clampCos (x : ℝ) : ℝ :=
  let x1 := if x > 1 then 1 else x
  if x1 < -1 then -1 else x1

/-- The ratio factor: `rf = 1` when `beta < 0.0001`, else
`rf = 2 / beta * tan(beta / 2)`. -/
noncomputable def rfOf (beta : ℝ) : ℝ :=
  if beta < 0.0001 then 1 else 2 / beta * Real.tan (beta / 2)

/-- Definition of `minimum_curvature(md1, inc1, azi1, md2, inc2, azi2)` returning
(delta_north, delta_east, delta_tvd, dls), as in utils.py. -/
noncomputable def minimum_curvature (md1 inc1 azi1 md2 inc2 azi2 : ℝ) : ℝ × ℝ × ℝ × ℝ :=
  let i1 := radiansR inc1
  let a1 := radiansR azi1
  let i2 := radiansR inc2
  let a2 := radiansR azi2
  let delta_md := md2 - md1
  let beta := Real.arccos (clampCos (cosBeta i1 a1 i2 a2))
  let rf := rfOf beta
  (delta_md / 2 * (Real.sin i1 * Real.cos a1 + Real.sin i2 * Real.cos a2) * rf,
   delta_md / 2 * (Real.sin i1 * Real.sin a1 + Real.sin i2 * Real.sin a2) * rf,
   delta_md / 2 * (Real.cos i1 + Real.cos i2) * rf,
   if delta_md = 0 then 0 else degreesR beta * 30 / delta_md)

theorem clampCos_mem (x : ℝ) : -1 ≤ clampCos x ∧ clampCos x ≤ 1 := by
  simp only [clampCos]
  by_cases h1 : x > 1
  · rw [if_pos h1]
    norm_num
  · rw [if_neg h1]
    by_cases h2 : x < -1
    · rw [if_pos h2]
      norm_num
    · rw [if_neg h2]
      exact ⟨le_of_not_lt h2, le_of_not_gt h1⟩

/-- C2: for every pair of measurements, the cosine value fed to the
inverse-cosine step of the station solver lies in [-1, 1] after clamping, so
(in exact arithmetic) the inverse cosine is always called inside its domain. -/
theorem C2_clamped_cosine_in_range (inc1 azi1 inc2 azi2 : ℝ) :
    -1 ≤ clampCos (cosBeta (radiansR inc1) (radiansR azi1) (radiansR inc2) (radiansR azi2)) ∧
    clampCos (cosBeta (radiansR inc1) (radiansR azi1) (radiansR inc2) (radiansR azi2)) ≤ 1 :=
  clampCos_mem _

/-- C10: the dogleg severity output of the station solver is non-negative
whenever the depth delta is positive (the dogleg angle is an arccosine value
in [0, pi]), and it is exactly zero for a zero depth delta. -/
theorem C10_dls_nonneg (md1 inc1 azi1 md2 inc2 azi2 : ℝ) :
    (md1 < md2 → 0 ≤ (minimum_curvature md1 inc1 azi1 md2 inc2 azi2).2.2.2) ∧
    (md2 = md1 → (minimum_curvature md1 inc1 azi1 md2 inc2 azi2).2.2.2 = 0) := by
  have hdls : (minimum_curvature md1 inc1 azi1 md2 inc2 azi2).2.2.2 =
      if md2 - md1 = 0 then (0 : ℝ)
      else degreesR (Real.arccos (clampCos (cosBeta (radiansR inc1) (radiansR azi1)
        (radiansR inc2) (radiansR azi2)))) * 30 / (md2 - md1) := rfl
  constructor
  · intro hlt
    rw [hdls, if_neg (sub_ne_zero.2 (ne_of_gt hlt))]
    have hbeta := Real.arccos_nonneg (clampCos (cosBeta (radiansR inc1) (radiansR azi1)
      (radiansR inc2) (radiansR azi2)))
    have hdeg : 0 ≤ degreesR (Real.arccos (clampCos (cosBeta (radiansR inc1) (radiansR azi1)
        (radiansR inc2) (radiansR azi2)))) := by
      rw [degreesR]
      have hpi := Real.pi_pos
      exact mul_nonneg hbeta (by positivity)
    have hdm : (0 : ℝ) < md2 - md1 := sub_pos.2 hlt
    exact div_nonneg (mul_nonneg hdeg (by norm_num)) (le_of_lt hdm)
  · intro heq
    rw [hdls, if_pos (by rw [heq, sub_self])]

/-- C10 witness: a vertical 30-depth-unit segment has dls 0 (which is
non-negative), and a zero-length segment has dls exactly 0. -/
theorem C10_dls_nonneg_witness :
    0 ≤ (minimum_curvature 0 0 0 30 0 0).2.2.2 ∧
    (minimum_curvature 5 0 0 5 0 0).2.2.2 = 0 :=
  ⟨(C10_dls_nonneg 0 0 0 30 0 0).1 (by norm_num), (C10_dls_nonneg 5 0 0 5 0 0).2 rfl⟩

/-! ## Trajectory accumulator (utils.py, `process_survey_file` survey loop) -/

/-- One raw Survey row: `float(row['MD'])`, `float(row['Inc'])`,
`float(row['Azi'])`. -/
structure Row where
  md : ℚ
  inc : ℚ
  azi : ℚ
deriving DecidableEq

/-- A computed `TrajectoryStation`: the raw fields plus the computed position
and per-segment dogleg severity. -/
structure StationR where
  md : ℚ
  inc : ℚ
  azi : ℚ
  tvd : ℝ
  north : ℝ
  east : ℝ
  dls : ℝ

def defaultStationR : StationR := ⟨0, 0, 0, 0, 0, 0, 0⟩

instance decRowLe : DecidableRel (fun p q : Nat × Row => p.2.md ≤ q.2.md) :=
  fun p q => inferInstanceAs (Decidable (p.2.md ≤ q.2.md))

/-- Model of `df_survey.sort_values('MD')`: pandas keeps the original index labels, and
`iterrows` then yields (original label, row) in depth order.  Rows are
modelled with their original position as label; the specification fixes the
sort to be stable, which a stable insertion sort realises. -/
def sortedRows (l : List Row) : List (Nat × Row) :=
  List.insertionSort (fun p q : Nat × Row => p.2.md ≤ q.2.md) l.enum

/-- The accumulation loop of `process_survey_file` (lines 86-106): iterate the
depth-sorted rows with their original labels; when `index == 0 and md == 0`
take the tie-in branch (zero increments and dls, solver not called),
otherwise call `minimum_curvature` against the previous row (initially the
implicit zero datum `0, 0, 0`) and add the increments to the running totals.
Each emitted entry also records whether the solver was invoked for it. -/
noncomputable def stationsLoop :
    List (Nat × Row) → ℝ → ℝ → ℝ → ℚ → ℚ → ℚ → List (StationR × Bool)
  | [], _, _, _, _, _, _ => []
  | (idx, r) :: rest, cn, ce, ct, pmd, pinc, pazi =>
    if idx = 0 ∧ r.md = 0 then
      (⟨r.md, r.inc, r.azi, ct, cn, ce, 0⟩, false)
        :: stationsLoop rest cn ce ct r.md r.inc r.azi
    else
      (⟨r.md, r.inc, r.azi,
        ct + (minimum_curvature (pmd : ℝ) (pinc : ℝ) (pazi : ℝ) (r.md : ℝ) (r.inc : ℝ) (r.azi : ℝ)).2.2.1,
        cn + (minimum_curvature (pmd : ℝ) (pinc : ℝ) (pazi : ℝ) (r.md : ℝ) (r.inc : ℝ) (r.azi : ℝ)).1,
        ce + (minimum_curvature (pmd : ℝ) (pinc : ℝ) (pazi : ℝ) (r.md : ℝ) (r.inc : ℝ) (r.azi : ℝ)).2.1,
        (minimum_curvature (pmd : ℝ) (pinc : ℝ) (pazi : ℝ) (r.md : ℝ) (r.inc : ℝ) (r.azi : ℝ)).2.2.2⟩,
       true)
        :: stationsLoop rest
          (cn + (minimum_curvature (pmd : ℝ) (pinc : ℝ) (pazi : ℝ) (r.md : ℝ) (r.inc : ℝ) (r.azi : ℝ)).1)
          (ce + (minimum_curvature (pmd : ℝ) (pinc : ℝ) (pazi : ℝ) (r.md : ℝ) (r.inc : ℝ) (r.azi : ℝ)).2.1)
          (ct + (minimum_curvature (pmd : ℝ) (pinc : ℝ) (pazi : ℝ) (r.md : ℝ) (r.inc : ℝ) (r.azi : ℝ)).2.2.1)
          r.md r.inc r.azi

/-- The positioned-station sequence computed by `process_survey_file`. -/
noncomputable def accumulate (l : List Row) : List StationR :=
  (stationsLoop (sortedRows l) 0 0 0 0 0 0).map Prod.fst

/-- Which stations were produced by a solver call (true) versus the tie-in
shortcut (false), in depth order. -/
noncomputable def accumulateFlags (l : List Row) : List Bool :=
  (stationsLoop (sortedRows l) 0 0 0 0 0 0).map Prod.snd

/-- The label-free accumulation loop: always invoke the solver.  Used as the
reference semantics to which the labelled loop is reduced. -/
noncomputable def stationsLoopV : List Row → ℝ → ℝ → ℝ → ℚ → ℚ → ℚ → List StationR
  | [], _, _, _, _, _, _ => []
  | r :: rest, cn, ce, ct, pmd, pinc, pazi =>
    ⟨r.md, r.inc, r.azi,
      ct + (minimum_curvature (pmd : ℝ) (pinc : ℝ) (pazi : ℝ) (r.md : ℝ) (r.inc : ℝ) (r.azi : ℝ)).2.2.1,
      cn + (minimum_curvature (pmd : ℝ) (pinc : ℝ) (pazi : ℝ) (r.md : ℝ) (r.inc : ℝ) (r.azi : ℝ)).1,
      ce + (minimum_curvature (pmd : ℝ) (pinc : ℝ) (pazi : ℝ) (r.md : ℝ) (r.inc : ℝ) (r.azi : ℝ)).2.1,
      (minimum_curvature (pmd : ℝ) (pinc : ℝ) (pazi : ℝ) (r.md : ℝ) (r.inc : ℝ) (r.azi : ℝ)).2.2.2⟩
      :: stationsLoopV rest
        (cn + (minimum_curvature (pmd : ℝ) (pinc : ℝ) (pazi : ℝ) (r.md : ℝ) (r.inc : ℝ) (r.azi : ℝ)).1)
        (ce + (minimum_curvature (pmd : ℝ) (pinc : ℝ) (pazi : ℝ) (r.md : ℝ) (r.inc : ℝ) (r.azi : ℝ)).2.1)
        (ct + (minimum_curvature (pmd : ℝ) (pinc : ℝ) (pazi : ℝ) (r.md : ℝ) (r.inc : ℝ) (r.azi : ℝ)).2.2.1)
        r.md r.inc r.azi

/-- The Survey-sheet stage of `process_survey_file`, given an already parsed
workbook: the two explicit validations (sheet presence, required columns)
raise `ValueError`; the station loop itself performs no emptiness check, so
an empty (but well-formed) Survey sheet flows through to success. -/
noncomputable def process_survey_file (hasSurveySheet hasRequiredCols : Bool)
    (rows : List Row) : Except String (List StationR) :=
  if !hasSurveySheet then Except.error ("Falta la hoja Survey en el archivo.")
  else if !hasRequiredCols then
    Except.error ("La hoja Survey debe tener columnas MD, Inc, Azi")
  else Except.ok (accumulate rows)

/-- C3 counterexample: an empty measurement sequence does not produce an
input error — the computation reports success. -/
theorem C3_counterexample : (process_survey_file true true []).isOk = true := rfl

/-- C3 (amended): when the Survey sheet and its required columns are present,
an empty measurement sequence is processed successfully with an empty station
list (there is no emptiness check and no input error). -/
theorem C3_amended : process_survey_file true true [] = Except.ok [] := rfl

/-! ## Evaluation lemmas for the solver -/

/-- A zero depth delta zeroes all outputs of the solver: every displacement
carries the factor `delta_md / 2`, and the dls branch returns 0. -/
theorem minimum_curvature_same_depth (md inc1 azi1 inc2 azi2 : ℝ) :
    minimum_curvature md inc1 azi1 md inc2 azi2 = (0, 0, 0, 0) := by
  simp only [minimum_curvature, sub_self, Prod.mk.injEq]
  norm_num

/-- A vertical pair (both inclinations and azimuths zero) displaces purely in
tvd by the depth delta, with dls 0. -/
theorem minimum_curvature_vertical (md1 md2 : ℝ) :
    minimum_curvature md1 0 0 md2 0 0 = (0, 0, md2 - md1, 0) := by
  have hr : radiansR 0 = 0 := by simp [radiansR]
  have hcb : cosBeta 0 0 0 0 = 1 := by simp [cosBeta]
  have hcl : clampCos 1 = 1 := by norm_num [clampCos]
  have hrf : rfOf 0 = 1 := by norm_num [rfOf]
  simp only [minimum_curvature, hr, hcb, hcl, Real.arccos_one, hrf, Prod.mk.injEq]
  norm_num [degreesR]

/-! ## Reduction of the labelled loop to the value loop -/

instance : IsTotal (Nat × Row) (fun p q : Nat × Row => p.2.md ≤ q.2.md) :=
  ⟨fun p q => le_total p.2.md q.2.md⟩

instance : IsTrans (Nat × Row) (fun p q : Nat × Row => p.2.md ≤ q.2.md) :=
  ⟨fun _ _ _ h1 h2 => le_trans h1 h2⟩

theorem sortedRows_perm (l : List Row) : List.Perm (sortedRows l) l.enum :=
  List.perm_insertionSort _ _

theorem sortedRows_sorted (l : List Row) :
    (sortedRows l).Pairwise (fun p q : Nat × Row => p.2.md ≤ q.2.md) :=
  List.sorted_insertionSort _ _

/-- On a label/row list with no row satisfying the tie-in condition, the
labelled loop is the value loop. -/
theorem stationsLoop_no_trigger :
    ∀ (s : List (Nat × Row)) (cn ce ct : ℝ) (pmd pinc pazi : ℚ),
      (∀ p ∈ s, ¬(p.1 = 0 ∧ p.2.md = 0)) →
      (stationsLoop s cn ce ct pmd pinc pazi).map Prod.fst
        = stationsLoopV (s.map Prod.snd) cn ce ct pmd pinc pazi := by
  intro s
  induction s with
  | nil => intro cn ce ct pmd pinc pazi _; rfl
  | cons p rest ih =>
    intro cn ce ct pmd pinc pazi hno
    obtain ⟨idx, r⟩ := p
    have hcond : ¬(idx = 0 ∧ r.md = 0) := hno (idx, r) (List.mem_cons_self _ _)
    simp only [stationsLoop, if_neg hcond, stationsLoopV, List.map_cons]
    exact congrArg (List.cons _)
      (ih _ _ _ _ _ _ (fun q hq => hno q (List.mem_cons_of_mem _ hq)))

/-- When the head row has depth zero and the remaining rows are non-negative,
the stable sort puts the originally-first row in front: the tail of the
ordered insertion has no depth strictly below zero, so nothing passes it. -/
theorem sortedRows_cons_zero {r0 : Row} {rest : List Row} (hr0 : r0.md = 0)
    (hpos : ∀ r ∈ rest, 0 ≤ r.md) :
    sortedRows (r0 :: rest)
      = (0, r0) :: List.insertionSort (fun p q : Nat × Row => p.2.md ≤ q.2.md)
          (rest.enumFrom 1) := by
  rw [sortedRows, List.enum_cons]
  cases hS : List.insertionSort (fun p q : Nat × Row => p.2.md ≤ q.2.md) (rest.enumFrom 1) with
  | nil => simp only [List.insertionSort, hS, List.orderedInsert]
  | cons x xs =>
    have hxmem : x ∈ rest.enumFrom 1 :=
      (List.perm_insertionSort _ _).mem_iff.1 (by rw [hS]; exact List.mem_cons_self _ _)
    have hx2 : x.2 ∈ rest := List.snd_mem_of_mem_enumFrom hxmem
    have hle : ((0, r0) : Nat × Row).2.md ≤ x.2.md := by
      show r0.md ≤ x.2.md
      rw [hr0]
      exact hpos _ hx2
    simp only [List.insertionSort, hS, List.orderedInsert, if_pos hle]

/-- Under non-negative depths the labelled accumulation equals the plain
value-loop accumulation on the sorted rows: either no row triggers the
tie-in branch, or only the head does, and there both branches produce the
same station (zero increments, dls 0). -/
theorem accumulate_eq_values_of_nonneg {l : List Row} (hpos : ∀ r ∈ l, 0 ≤ r.md) :
    accumulate l = stationsLoopV ((sortedRows l).map Prod.snd) 0 0 0 0 0 0 := by
  cases l with
  | nil => rfl
  | cons r0 rest =>
    by_cases hr0 : r0.md = 0
    · have hposrest : ∀ r ∈ rest, 0 ≤ r.md := fun r hr => hpos r (List.mem_cons_of_mem _ hr)
      have hs := sortedRows_cons_zero hr0 hposrest
      have hno : ∀ p ∈ List.insertionSort (fun p q : Nat × Row => p.2.md ≤ q.2.md)
          (rest.enumFrom 1), ¬(p.1 = 0 ∧ p.2.md = 0) := by
        intro p hp hcon
        have hmem : p ∈ rest.enumFrom 1 := (List.perm_insertionSort _ _).mem_iff.1 hp
        obtain ⟨i, r⟩ := p
        have h1le := List.le_fst_of_mem_enumFrom hmem
        have : i = 0 := hcon.1
        omega
      have hd : minimum_curvature ((0 : ℚ) : ℝ) ((0 : ℚ) : ℝ) ((0 : ℚ) : ℝ)
          (r0.md : ℝ) (r0.inc : ℝ) (r0.azi : ℝ) = (0, 0, 0, 0) := by
        rw [hr0]
        push_cast
        exact minimum_curvature_same_depth 0 0 0 _ _
      rw [accumulate, hs]
      simp only [stationsLoop, List.map_cons, stationsLoopV]
      rw [if_pos ⟨trivial, hr0⟩]
      rw [hd]
      simp only [List.map_cons]
      rw [stationsLoop_no_trigger _ _ _ _ _ _ _ hno]
      norm_num
    · have hno : ∀ p ∈ sortedRows (r0 :: rest), ¬(p.1 = 0 ∧ p.2.md = 0) := by
        intro p hp hcon
        have hmem : p ∈ (r0 :: rest).enum := (sortedRows_perm _).mem_iff.1 hp
        rw [List.enum_cons] at hmem
        rcases List.mem_cons.1 hmem with heq | htail
        · apply hr0
          rw [heq] at hcon
          exact hcon.2
        · obtain ⟨i, r⟩ := p
          have h1le := List.le_fst_of_mem_enumFrom htail
          have : i = 0 := hcon.1
          omega
      rw [accumulate]
      exact stationsLoop_no_trigger _ 0 0 0 0 0 0 hno

/-! ## Permutation invariance of the sorted values -/

theorem sortedVals_perm (l : List Row) : List.Perm ((sortedRows l).map Prod.snd) l := by
  have h2 := (sortedRows_perm l).map Prod.snd
  rwa [List.enum_map_snd] at h2

theorem sortedVals_sorted (l : List Row) :
    ((sortedRows l).map Prod.snd).Pairwise (fun x y : Row => x.md ≤ y.md) :=
  (List.pairwise_map).2 (sortedRows_sorted l)

theorem sortedVals_strict {l : List Row} (hnodup : (l.map Row.md).Nodup) :
    ((sortedRows l).map Prod.snd).Pairwise (fun x y : Row => x.md < y.md) := by
  have hle := sortedVals_sorted l
  have hnd : (((sortedRows l).map Prod.snd).map Row.md).Nodup :=
    ((sortedVals_perm l).map Row.md).nodup_iff.2 hnodup
  have hne : ((sortedRows l).map Prod.snd).Pairwise (fun x y : Row => x.md ≠ y.md) :=
    (List.pairwise_map).1 hnd
  exact (hle.and hne).imp (fun h => lt_of_le_of_ne h.1 h.2)

/-- Two permutations of the same measurement multiset with pairwise-distinct
depths sort to the same value sequence. -/
theorem values_of_sorted_eq {l1 l2 : List Row} (hperm : List.Perm l1 l2)
    (hnodup : (l1.map Row.md).Nodup) :
    (sortedRows l1).map Prod.snd = (sortedRows l2).map Prod.snd := by
  haveI : IsAntisymm Row (fun x y : Row => x.md < y.md) :=
    ⟨fun a b h1 h2 => absurd h2 (not_lt.2 (le_of_lt h1))⟩
  have hnodup2 : (l2.map Row.md).Nodup := ((hperm.map Row.md).nodup_iff).1 hnodup
  exact List.eq_of_perm_of_sorted
    ((sortedVals_perm l1).trans (hperm.trans (sortedVals_perm l2).symm))
    (sortedVals_strict hnodup) (sortedVals_strict hnodup2)

/-- C5 counterexample: with a negative depth, the row that is first in the
original order (pandas label 0) and has depth exactly zero hits the tie-in
branch in one permutation but not in the other, so the two runs disagree. -/
theorem C5_counterexample :
    accumulate [⟨0, 0, 0⟩, ⟨-100, 0, 0⟩] ≠ accumulate [⟨-100, 0, 0⟩, ⟨0, 0, 0⟩] := by
  have hs1 : sortedRows [⟨0, 0, 0⟩, ⟨-100, 0, 0⟩]
      = [(1, ⟨-100, 0, 0⟩), (0, ⟨0, 0, 0⟩)] := by decide
  have hs2 : sortedRows [⟨-100, 0, 0⟩, ⟨0, 0, 0⟩]
      = [(0, ⟨-100, 0, 0⟩), (1, ⟨0, 0, 0⟩)] := by decide
  intro h
  have h2 := congrArg (fun L => (L.getD 1 defaultStationR).tvd) h
  norm_num [accumulate, hs1, hs2, stationsLoop, minimum_curvature_vertical] at h2

/-- C5 (amended): for measurement sequences with pairwise-distinct,
non-negative depths, the accumulator is invariant under permutation of the
input: sorting puts both runs on the same row sequence, and the tie-in
special case is observationally equal to the solver call it replaces. -/
theorem C5_amended (l1 l2 : List Row) (hperm : List.Perm l1 l2)
    (hnodup : (l1.map Row.md).Nodup) (hpos : ∀ r ∈ l1, 0 ≤ r.md) :
    accumulate l1 = accumulate l2 := by
  have hpos2 : ∀ r ∈ l2, 0 ≤ r.md := fun r hr => hpos r (hperm.mem_iff.2 hr)
  rw [accumulate_eq_values_of_nonneg hpos, accumulate_eq_values_of_nonneg hpos2,
    values_of_sorted_eq hperm hnodup]

/-- C5 witness: a sorted two-row sequence and its reversal accumulate to the
same stations. -/
theorem C5_amended_witness :
    accumulate [⟨0, 0, 0⟩, ⟨100, 0, 0⟩] = accumulate [⟨100, 0, 0⟩, ⟨0, 0, 0⟩] :=
  C5_amended _ _ (by decide) (by decide) (by decide)

/-! ## Consecutive-pair structure of the accumulation -/

/-- The per-segment accumulation relation between consecutive stations: the
later station totals are the earlier totals plus the solver increments for
the pair of raw measurements, and its dls is the per-segment solver dls. -/
def stepRel (s1 s2 : StationR) : Prop :=
  s2.north = s1.north + (minimum_curvature (s1.md : ℝ) (s1.inc : ℝ) (s1.azi : ℝ)
    (s2.md : ℝ) (s2.inc : ℝ) (s2.azi : ℝ)).1 ∧
  s2.east = s1.east + (minimum_curvature (s1.md : ℝ) (s1.inc : ℝ) (s1.azi : ℝ)
    (s2.md : ℝ) (s2.inc : ℝ) (s2.azi : ℝ)).2.1 ∧
  s2.tvd = s1.tvd + (minimum_curvature (s1.md : ℝ) (s1.inc : ℝ) (s1.azi : ℝ)
    (s2.md : ℝ) (s2.inc : ℝ) (s2.azi : ℝ)).2.2.1 ∧
  s2.dls = (minimum_curvature (s1.md : ℝ) (s1.inc : ℝ) (s1.azi : ℝ)
    (s2.md : ℝ) (s2.inc : ℝ) (s2.azi : ℝ)).2.2.2

theorem stationsLoopV_consecutive :
    ∀ (vs : List Row) (cn ce ct : ℝ) (pmd pinc pazi : ℚ) (k : Nat),
      k + 1 < (stationsLoopV vs cn ce ct pmd pinc pazi).length →
      stepRel ((stationsLoopV vs cn ce ct pmd pinc pazi).getD k defaultStationR)
        ((stationsLoopV vs cn ce ct pmd pinc pazi).getD (k + 1) defaultStationR) := by
  intro vs
  induction vs with
  | nil =>
    intro cn ce ct pmd pinc pazi k hk
    simp [stationsLoopV] at hk
  | cons r rest ih =>
    intro cn ce ct pmd pinc pazi k hk
    cases k with
    | zero =>
      cases rest with
      | nil => simp [stationsLoopV] at hk
      | cons r2 rest2 =>
        simp only [stationsLoopV, List.getD_cons_zero, List.getD_cons_succ]
        exact ⟨rfl, rfl, rfl, rfl⟩
    | succ k2 =>
      simp only [stationsLoopV, List.getD_cons_succ]
      apply ih
      simp only [stationsLoopV, List.length_cons] at hk
      omega

/-- C6 counterexample: for the input `[(5,0,0), (0,0,0)]` the first sorted
measurement has depth exactly zero, but the solver is invoked for it anyway —
the tie-in branch also requires the original pandas label to be 0, and here
the zero-depth row was the second row of the file. -/
theorem C6_counterexample :
    ((sortedRows [⟨5, 0, 0⟩, ⟨0, 0, 0⟩]).headD (0, ⟨0, 0, 0⟩)).2.md = 0 ∧
    (accumulateFlags [⟨5, 0, 0⟩, ⟨0, 0, 0⟩]).headD false = true := by
  have hs : sortedRows [⟨5, 0, 0⟩, ⟨0, 0, 0⟩] = [(1, ⟨0, 0, 0⟩), (0, ⟨5, 0, 0⟩)] := by decide
  refine ⟨by rw [hs]; rfl, ?_⟩
  rw [accumulateFlags, hs]
  norm_num [stationsLoop]

/-- C6 (amended): when the first measurement after depth sorting has depth
exactly zero, that first station gets zero offsets and dls 0; the solver call
is skipped if and only if that measurement is also the originally-first row
(pandas label 0) — otherwise the solver is invoked against the zero datum but
contributes zero increments, so the station values are the same; and every
consecutive pair of stations is related by adding the solver increments to
the running totals, with per-segment dls. -/
theorem C6_amended (l : List Row) (hne : sortedRows l ≠ [])
    (h0 : ((sortedRows l).headD (0, ⟨0, 0, 0⟩)).2.md = 0) :
    (((accumulate l).headD defaultStationR).tvd = 0 ∧
      ((accumulate l).headD defaultStationR).north = 0 ∧
      ((accumulate l).headD defaultStationR).east = 0 ∧
      ((accumulate l).headD defaultStationR).dls = 0) ∧
    ((accumulateFlags l).headD true = false ↔ ((sortedRows l).headD (0, ⟨0, 0, 0⟩)).1 = 0) ∧
    (∀ k, k + 1 < (accumulate l).length →
      stepRel ((accumulate l).getD k defaultStationR)
        ((accumulate l).getD (k + 1) defaultStationR)) := by
  cases hs : sortedRows l with
  | nil => exact absurd hs hne
  | cons q t =>
  obtain ⟨j, r⟩ := q
  rw [hs, List.headD_cons] at h0
  have hsorted := sortedRows_sorted l
  rw [hs] at hsorted
  have htail : ∀ p ∈ t, (0 : ℚ) ≤ p.2.md := by
    intro p hp
    have hle := (List.pairwise_cons.1 hsorted).1 p hp
    exact h0 ▸ hle
  have hpos : ∀ rr ∈ l, 0 ≤ rr.md := by
    intro rr hrr
    have hmem : rr ∈ (sortedRows l).map Prod.snd := (sortedVals_perm l).mem_iff.2 hrr
    rw [hs, List.map_cons] at hmem
    rcases List.mem_cons.1 hmem with heq | htl
    · rw [heq]
      exact le_of_eq h0.symm
    · obtain ⟨p, hp, hpe⟩ := List.mem_map.1 htl
      rw [← hpe]
      exact htail p hp
  have hVeq := accumulate_eq_values_of_nonneg hpos
  rw [hs, List.map_cons] at hVeq
  have hd : minimum_curvature ((0 : ℚ) : ℝ) ((0 : ℚ) : ℝ) ((0 : ℚ) : ℝ)
      (r.md : ℝ) (r.inc : ℝ) (r.azi : ℝ) = (0, 0, 0, 0) := by
    rw [show r.md = 0 from h0]
    push_cast
    exact minimum_curvature_same_depth 0 0 0 _ _
  refine ⟨?_, ?_, ?_⟩
  · rw [hVeq]
    simp only [stationsLoopV, List.headD_cons]
    rw [hd]
    norm_num
  · rw [accumulateFlags, hs]
    simp only [List.headD_cons]
    by_cases hj : j = 0
    · subst hj
      simp only [stationsLoop]
      rw [if_pos (by exact ⟨by trivial, h0⟩)]
      simp
    · simp only [stationsLoop]
      rw [if_neg (fun hc => hj hc.1)]
      simp [hj]
  · intro k hk
    rw [hVeq] at hk ⊢
    exact stationsLoopV_consecutive _ _ _ _ _ _ _ k hk

theorem stationsLoop_length :
    ∀ (s : List (Nat × Row)) (cn ce ct : ℝ) (pmd pinc pazi : ℚ),
      (stationsLoop s cn ce ct pmd pinc pazi).length = s.length := by
  intro s
  induction s with
  | nil => intro cn ce ct pmd pinc pazi; rfl
  | cons p rest ih =>
    intro cn ce ct pmd pinc pazi
    obtain ⟨idx, r⟩ := p
    by_cases hcond : idx = 0 ∧ r.md = 0
    · simp only [stationsLoop, if_pos hcond, List.length_cons, ih]
    · simp only [stationsLoop, if_neg hcond, List.length_cons, ih]

theorem accumulate_length (l : List Row) : (accumulate l).length = (sortedRows l).length := by
  rw [accumulate, List.length_map, stationsLoop_length]

/-- C6 witness: the tie-in input `[(0,0,0), (100,2,45)]` — depth-zero first
row, solver skipped for it, and the second station obtained by adding the
solver increments. -/
theorem C6_amended_witness :
    (((accumulate [⟨0, 0, 0⟩, ⟨100, 2, 45⟩]).headD defaultStationR).tvd = 0 ∧
      ((accumulate [⟨0, 0, 0⟩, ⟨100, 2, 45⟩]).headD defaultStationR).north = 0 ∧
      ((accumulate [⟨0, 0, 0⟩, ⟨100, 2, 45⟩]).headD defaultStationR).east = 0 ∧
      ((accumulate [⟨0, 0, 0⟩, ⟨100, 2, 45⟩]).headD defaultStationR).dls = 0) ∧
    ((accumulateFlags [⟨0, 0, 0⟩, ⟨100, 2, 45⟩]).headD true = false ↔
      ((sortedRows [⟨0, 0, 0⟩, ⟨100, 2, 45⟩]).headD (0, ⟨0, 0, 0⟩)).1 = 0) ∧
    stepRel ((accumulate [⟨0, 0, 0⟩, ⟨100, 2, 45⟩]).getD 0 defaultStationR)
      ((accumulate [⟨0, 0, 0⟩, ⟨100, 2, 45⟩]).getD 1 defaultStationR) :=
  ⟨(C6_amended _ (by decide) (by decide)).1,
   (C6_amended _ (by decide) (by decide)).2.1,
   (C6_amended _ (by decide) (by decide)).2.2 0 (by rw [accumulate_length]; decide)⟩
